import Mathlib

/-!
Verification of the SmartAudio-Agent core subsystem: speaker-attributed text
segmentation and the resumable checkpointed batch-synthesis pipeline.

The Python sources are shallowly embedded over `List Char`.  Each definition
mirrors one function of the repository (the file and line of the source are
given in its doc comment); theorems at the end of the file settle the spec
claims against these definitions.
-/

namespace SAA

/-- Texts are modelled as lists of characters. -/
abbrev Str := List Char

/-- Turns a Lean string literal into the `Str` representation. -/
def str (x : String) : Str := x.data

/-- Whitespace test matching Python's `str.isspace` / regex `\s` on the
characters this code base manipulates (space, tab, newline, carriage return,
vertical tab, form feed). -/
def pySpace (c : Char) : Bool :=
  c = ' ' || c = '\t' || c = '\n' || c = '\x0d' || c = '\x0b' || c = '\x0c'

/-- ASCII lower-casing, matching Python's `str.lower` on the ASCII texts the
repository processes (non-ASCII characters pass through unchanged). -/
def lowerChar (c : Char) : Char :=
  match c with
  | 'A' => 'a' | 'B' => 'b' | 'C' => 'c' | 'D' => 'd' | 'E' => 'e' | 'F' => 'f'
  | 'G' => 'g' | 'H' => 'h' | 'I' => 'i' | 'J' => 'j' | 'K' => 'k' | 'L' => 'l'
  | 'M' => 'm' | 'N' => 'n' | 'O' => 'o' | 'P' => 'p' | 'Q' => 'q' | 'R' => 'r'
  | 'S' => 's' | 'T' => 't' | 'U' => 'u' | 'V' => 'v' | 'W' => 'w' | 'X' => 'x'
  | 'Y' => 'y' | 'Z' => 'z'
  | other => other

/-- Lower-cases a text (Python `text.lower()`). -/
def lowerStr (t : Str) : Str := t.map lowerChar

/-- Tests whether `t` begins with `p` (Python `str.startswith`). -/
def startsWithL : Str → Str → Bool
  | _, [] => true
  | [], _ :: _ => false
  | c :: t, d :: p => c = d && startsWithL t p

/-- Tests whether `needle` occurs as a contiguous substring of `hay`
(Python `needle in hay`). -/
def containsL : Str → Str → Bool
  | [], needle => startsWithL [] needle
  | c :: t, needle => startsWithL (c :: t) needle || containsL t needle

/-- Propositional form of substring occurrence. -/
def OccursIn (needle hay : Str) : Prop := ∃ u v, hay = u ++ needle ++ v

/-- Python `str.strip()` on the left: drop leading whitespace. -/
def lstrip (t : Str) : Str := t.dropWhile pySpace

/-- Python `str.strip()`: drop leading and trailing whitespace. -/
def strip (t : Str) : Str := ((t.dropWhile pySpace).reverse.dropWhile pySpace).reverse

/-- Scanner for Python `str.split()` with no separator; `acc` is the current
token in reverse (empty when between tokens). -/
def pySplitCore (acc : Str) : Str → List Str
  | [] => if acc.isEmpty then [] else [acc.reverse]
  | c :: t =>
    if pySpace c then
      if acc.isEmpty then pySplitCore [] t else acc.reverse :: pySplitCore [] t
    else pySplitCore (c :: acc) t

/-- Python `str.split()` with no separator: maximal non-whitespace runs, with
empty tokens discarded. -/
def pySplit (t : Str) : List Str := pySplitCore [] t

/-- Counts the tokens of `t` (after Python `.split()`) equal to `w`. -/
def tokenCount (t : Str) (w : Str) : Nat := (pySplit t).count w

/-! ## JobState (src/saa/models/job_state.py) -/

/-- Pipeline processing stages (src/saa/models/job_state.py:9-21,
class `ProcessingStage`). -/
inductive ProcessingStage
  | pending | document_load | text_cleaning | segmentation | voice_planning
  | synthesis | audio_merge | finalization | completed | failed | cancelled
deriving DecidableEq, Repr

/-- Position of a stage in the forward pipeline order of spec §4.5
(`PENDING → … → COMPLETED`); the two terminal failure stages sit after it.
Used only to state the monotonicity claim. -/
def stageRank : ProcessingStage → Nat
  | .pending => 0
  | .document_load => 1
  | .text_cleaning => 2
  | .segmentation => 3
  | .voice_planning => 4
  | .synthesis => 5
  | .audio_merge => 6
  | .finalization => 7
  | .completed => 8
  | .failed => 9
  | .cancelled => 10

/-- Job state for checkpoint/resume (src/saa/models/job_state.py:24-57,
dataclass `JobState`).  Only the fields the claims are about are modelled;
the path, timestamp and metadata fields play no role in any claim
(`updated_at` is set to `datetime.now()` by every mutator and carries no
checkable content). -/
structure JobState where
  total_segments : Nat
  completed_segments : List Nat
  failed_segments : List Nat
  stage : ProcessingStage
deriving DecidableEq, Repr

/-- `JobState.mark_segment_completed` (src/saa/models/job_state.py:99-105):
append the index to `completed_segments` unless present, remove it from
`failed_segments` if present. -/
def markSegmentCompleted (s : JobState) (i : Nat) : JobState :=
  { s with
    completed_segments :=
      if i ∈ s.completed_segments then s.completed_segments
      else s.completed_segments ++ [i]
    failed_segments :=
      if i ∈ s.failed_segments then s.failed_segments.erase i
      else s.failed_segments }

/-- `JobState.mark_segment_failed` (src/saa/models/job_state.py:107-113):
append the index to `failed_segments` unless present, remove it from
`completed_segments` if present. -/
def markSegmentFailed (s : JobState) (i : Nat) : JobState :=
  { s with
    failed_segments :=
      if i ∈ s.failed_segments then s.failed_segments
      else s.failed_segments ++ [i]
    completed_segments :=
      if i ∈ s.completed_segments then s.completed_segments.erase i
      else s.completed_segments }

/-- `JobState.advance_stage` (src/saa/models/job_state.py:115-120): the stage
field is assigned unconditionally; no ordering check is performed. -/
def advanceStage (s : JobState) (newStage : ProcessingStage) : JobState :=
  { s with stage := newStage }

/-- Well-formedness of a job state, as the spec's §3 invariants put it:
duplicate-free segment lists, disjointness, and containment in
`[0, totalSegments)`. -/
def JobState.wf (s : JobState) : Prop :=
  s.completed_segments.Nodup ∧ s.failed_segments.Nodup ∧
  (∀ i ∈ s.completed_segments, i ∉ s.failed_segments) ∧
  (∀ i ∈ s.completed_segments, i < s.total_segments) ∧
  (∀ i ∈ s.failed_segments, i < s.total_segments)

/-! ## Resume executor (src/saa/tools/resume_tools.py, state_tools.py,
tts_tools.py) -/

/-- Modelled from the spec: `load(path)` reads the persisted JobState back
from durable storage (spec §4.5).  `JobState.load` is called at
src/saa/tools/resume_tools.py:42 and state_tools.py:69 but is defined
nowhere under src/, so the durable store is modelled as holding the stored
`JobState` value and `load` as returning it. -/
def JobState.load (stored : JobState) : JobState := stored

/-- The parameter names accepted by `synthesize_audio`
(src/saa/tools/tts_tools.py:173-183).  The function has no `**kwargs`
catch-all, so a call with any other keyword raises `TypeError`. -/
def synthesizeAudioParams : List Str :=
  [str "text", str "output_path", str "reference_audio", str "provider",
   str "voice", str "language", str "temperature", str "speed",
   str "use_temp_dir"]

/-- The keyword arguments `synthesize_remaining_chunks` passes to
`synthesize_audio` (src/saa/tools/resume_tools.py:98-107). -/
def resumeSynthCallKwargs : List Str :=
  [str "text", str "output_path", str "reference_audio", str "voice",
   str "speed", str "use_temp_dir", str "chunk_id", str "job_state_path"]

/-- Whether the call at resume_tools.py:98 binds: every keyword used must be
a parameter of `synthesize_audio`; otherwise Python raises `TypeError`
before the function body runs. -/
def resumeSynthCallOk : Bool :=
  resumeSynthCallKwargs.all (fun k => synthesizeAudioParams.contains k)

/-- `get_chunks_to_synthesize` (src/saa/tools/state_tools.py:69-98), reduced
to the id level: chunks whose id is not in the completed set, in the order
of chunks.json.  (`chunks.json` is written by `segment_text` with ids
`0..n-1` in ascending order, text_tools.py:260-270.) -/
def getChunksToSynthesize (completedSegments : List Nat) (chunkIds : List Nat) :
    List Nat :=
  chunkIds.filter (fun id => !completedSegments.contains id)

/-- Observable outcome of one run of `synthesize_remaining_chunks`. -/
structure ResumeOutcome where
  /-- `status == "success"` of the returned dictionary. -/
  statusSuccess : Bool
  /-- `chunks_synthesized` of the returned dictionary. -/
  chunksSynthesized : Nat
  /-- `failed_chunks` of the returned dictionary. -/
  failedChunks : List Nat
  /-- Ids for which the body of `synthesize_audio` actually executed. -/
  synthesisInvoked : List Nat
  /-- The job state after the run.  `synthesize_remaining_chunks`
  (resume_tools.py:35-126) contains no call to `mark_segment_completed`,
  `mark_segment_failed` or any persistence routine, so the state is
  whatever it was when loaded. -/
  finalState : JobState
deriving DecidableEq, Repr

/-- Loop body accumulator of resume_tools.py:85-114: counter of synthesized
chunks, failed chunk ids, and the trace of engine invocations. -/
def resumeLoopStep (synthOk : Nat → Bool) (acc : Nat × List Nat × List Nat)
    (id : Nat) : Nat × List Nat × List Nat :=
  if synthOk id then (acc.1 + 1, acc.2.1, acc.2.2 ++ [id])
  else (acc.1, acc.2.1 ++ [id], acc.2.2 ++ [id])

/-- `synthesize_remaining_chunks` (src/saa/tools/resume_tools.py:13-135).
Loads the state, filters to pending chunks (line 67), and loops.  Each
iteration calls `synthesize_audio(..., chunk_id=..., job_state_path=...)`
(lines 98-107); when that call does not bind (`resumeSynthCallOk = false`)
Python raises `TypeError` at the first pending chunk, the blanket
`except Exception` (line 128) catches it, and the function returns
`{"status": "error", "chunks_synthesized": 0, ...}` with the state
untouched.  `synthOk` abstracts the success of the external synthesis
engine for a given chunk id. -/
def synthesizeRemainingChunks (stored : JobState) (chunkIds : List Nat)
    (synthOk : Nat → Bool) : ResumeOutcome :=
  let state := JobState.load stored
  let pending := chunkIds.filter (fun id => !state.completed_segments.contains id)
  if pending.isEmpty then
    { statusSuccess := true, chunksSynthesized := 0, failedChunks := [],
      synthesisInvoked := [], finalState := state }
  else if resumeSynthCallOk then
    let r := pending.foldl (resumeLoopStep synthOk) (0, [], [])
    { statusSuccess := true, chunksSynthesized := r.1, failedChunks := r.2.1,
      synthesisInvoked := r.2.2, finalState := state }
  else
    { statusSuccess := false, chunksSynthesized := 0, failedChunks := [],
      synthesisInvoked := [], finalState := state }

/-! ## Segmenter (src/saa/tools/text_tools.py:151-295, `segment_text`) -/

/-- `MAX_SEGMENT_LENGTH` (src/saa/constants.py:7). -/
def MAX_SEGMENT_LENGTH : Nat := 250

/-- `SAFE_SEGMENT_LENGTH` (src/saa/constants.py:8). -/
def SAFE_SEGMENT_LENGTH : Nat := 200

/-- Sentence terminators of the split regex `(?<=[.!?])\s+`
(text_tools.py:181). -/
def sentTerm (c : Char) : Bool := c = '.' || c = '!' || c = '?'

/-- Clause terminators of the split regex `(?<=[,;])\s+`
(text_tools.py:194). -/
def clauseTerm (c : Char) : Bool := c = ',' || c = ';'

/-- The lookbehind `(?<=[.!?])` (or `(?<=[,;])`) of the split regexes,
applied to the character preceding the scan position: `acc` holds the
current piece in reverse, so its head is that character. -/
def lastIsTerm (term : Char → Bool) : Str → Bool
  | p :: _ => term p
  | [] => false

/-- Core of Python's `re.split(r'(?<=[.!?])\s+', text)` (and the `[,;]`
variant): walking left to right, a maximal whitespace run whose preceding
character satisfies `term` separates two pieces and is consumed; all other
characters belong to the current piece.  `acc` is the current piece in
reverse; `skipping` records that the scan stands inside a separating
whitespace run (the regex engine's position after a match). -/
def splitCore (term : Char → Bool) (skipping : Bool) (acc : Str) : Str → List Str
  | [] => [acc.reverse]
  | c :: rest =>
    if skipping && pySpace c then splitCore term true acc rest
    else if pySpace c && lastIsTerm term acc then
      acc.reverse :: splitCore term true [] rest
    else splitCore term false (c :: acc) rest

/-- Splits a text after `term` characters, per the regexes of
text_tools.py:181 and 194. -/
def splitAfter (term : Char → Bool) (t : Str) : List Str :=
  splitCore term false [] t

/-- The sentence list `re.split(r'(?<=[.!?])\s+', text)`
(text_tools.py:181). -/
def splitSentences (t : Str) : List Str := splitAfter sentTerm t

/-- The sub-part list `re.split(r'(?<=[,;])\s+', sentence)`
(text_tools.py:194). -/
def splitClauses (t : Str) : List Str := splitAfter clauseTerm t

/-- Python `' '.join(pieces)`: the pieces joined by single spaces. -/
def joinSp : List Str → Str
  | [] => []
  | [x] => x
  | x :: y :: rest => x ++ ' ' :: joinSp (y :: rest)

/-- Loop state of text_tools.py:183-186: the flushed chunk texts, the pending
chunk as a list of pieces (`current_chunk`), and `current_length`, the sum of
the piece lengths (join spaces are not counted by the source). -/
structure SegAcc where
  segments : List Str
  currentChunk : List Str
  currentLength : Nat
deriving Repr, DecidableEq

/-- The flush-or-append step shared verbatim by both branches of the loop
(text_tools.py:196-214 for comma parts, 217-235 for whole sentences): if
appending `piece` would push `current_length` past `maxChars` and the chunk
is non-empty, flush `' '.join(current_chunk)` and start a new chunk at
`piece`; otherwise append `piece` and add its length. -/
def processPiece (maxChars : Nat) (acc : SegAcc) (piece : Str) : SegAcc :=
  if acc.currentLength + piece.length > maxChars ∧ acc.currentChunk ≠ [] then
    { segments := acc.segments ++ [joinSp acc.currentChunk],
      currentChunk := [piece], currentLength := piece.length }
  else
    { segments := acc.segments, currentChunk := acc.currentChunk ++ [piece],
      currentLength := acc.currentLength + piece.length }

/-- Per-sentence step of the loop (text_tools.py:188-235): a sentence longer
than `maxChars` is comma/semicolon-split and its parts fed through the
shared step one by one; any other sentence goes through the step whole. -/
def processSentence (maxChars : Nat) (acc : SegAcc) (sentence : Str) : SegAcc :=
  if sentence.length > maxChars then
    (splitClauses sentence).foldl (processPiece maxChars) acc
  else
    processPiece maxChars acc sentence

/-- Final flush of the loop (text_tools.py:238-248): the chunk texts
emitted so far, plus the pending chunk joined by spaces when its piece list
is non-empty. -/
def segFinal (a : SegAcc) : List Str :=
  a.segments ++ (if a.currentChunk ≠ [] then [joinSp a.currentChunk] else [])

/-- `segment_text` (src/saa/tools/text_tools.py:151-295), reduced to the
segment texts in order.  A `max_chars` above `MAX_SEGMENT_LENGTH` is replaced
by `SAFE_SEGMENT_LENGTH` (line 177-178); then the sentence loop runs and the
trailing chunk, when non-empty as a list, is flushed (lines 238-248).  The
id/position/statistics bookkeeping and the chunks.json write (lines 250-281)
carry the same texts and are not modelled. -/
def segmentTexts (t : Str) (maxChars : Nat) : List Str :=
  let m := if maxChars > MAX_SEGMENT_LENGTH then SAFE_SEGMENT_LENGTH else maxChars
  segFinal ((splitSentences t).foldl (processSentence m) ⟨[], [], 0⟩)

/-- The effective limit `segment_text` works with after the safety cap of
text_tools.py:177-178. -/
def effectiveMax (maxChars : Nat) : Nat :=
  if maxChars > MAX_SEGMENT_LENGTH then SAFE_SEGMENT_LENGTH else maxChars

/-- The stream of pieces the loop of `segment_text` consumes, in order: each
sentence at most `maxChars` long stands as one piece, each longer sentence
contributes its comma/semicolon parts.  (Derived notion used to state the
round-trip property; `maxChars` here is the effective limit.) -/
def piecesOf (m : Nat) : List Str → List Str
  | [] => []
  | sentence :: rest =>
    (if sentence.length > m then splitClauses sentence else [sentence]) ++ piecesOf m rest

/-- Loop-state invariant used to prove the round-trip property: either
nothing has been flushed and the pending chunk holds exactly the pieces
consumed so far, or the consumed pieces split into a non-empty flushed part
whose space-join equals the join of the emitted segment texts, followed by
the non-empty pending chunk. -/
def SegInv (a : SegAcc) (ps : List Str) : Prop :=
  (a.segments = [] ∧ a.currentChunk = ps) ∨
  (∃ ps₁ ps₂, ps = ps₁ ++ ps₂ ∧ ps₁ ≠ [] ∧ ps₂ ≠ [] ∧ a.currentChunk = ps₂ ∧
    a.segments ≠ [] ∧ joinSp a.segments = joinSp ps₁)

/-- Direct form of the whitespace normalization `segment_text` applies at
sentence boundaries: every maximal whitespace run preceded by `.`, `!` or `?`
becomes a single space.  (Defined by direct recursion, mirrored on
`splitAfterAux` only in shape; the equality with split-then-join is a
theorem.) -/
def normCore (term : Char → Bool) (skipping : Bool) (acc : Str) : Str → Str
  | [] => acc.reverse
  | c :: rest =>
    if skipping && pySpace c then normCore term true acc rest
    else if pySpace c && lastIsTerm term acc then
      acc.reverse ++ ' ' :: normCore term true [] rest
    else normCore term false (c :: acc) rest

/-- Whitespace normalization at `term` boundaries. -/
def normAfter (term : Char → Bool) (t : Str) : Str := normCore term false [] t

/-! ## Content filter (src/character_voice_manager.py:57-87 `filter_text`;
the same four removal rules and cleanup appear in
src/saa/tools/text_tools.py:298-384 `filter_unwanted_content`) -/

/-- ASCII upper-case letter, the character class `[A-Z]`. -/
def isUpperAZ (c : Char) : Bool := 'A' ≤ c && c ≤ 'Z'

/-- ASCII digit, the character class `\d` on this repository's texts. -/
def isDigit09 (c : Char) : Bool := '0' ≤ c && c ≤ '9'

/-- Case-insensitive prefix test (`needle` given lower-case). -/
def startsWithCI : Str → Str → Bool
  | _, [] => true
  | [], _ :: _ => false
  | c :: t, d :: p => lowerChar c = d && startsWithCI t p

/-- The lookahead `(?=\n\n[A-Z]|\Z)` of the copyright rule, tested at a
position inside the text (`\Z` is the empty remainder). -/
def copyLookahead : Str → Bool
  | '\n' :: '\n' :: c :: _ => isUpperAZ c
  | [] => true
  | _ => false

/-- Whether the text begins with `Copyright © ` followed by four digits
(the anchor `Copyright © \d{4}` of the rule at character_voice_manager.py:70,
text_tools.py:325); the anchor spans 16 characters. -/
def copyrightHeaderAt (t : Str) : Bool :=
  startsWithL t (str "Copyright © ") &&
    (let ds := (t.drop 12).take 4
     ds.length == 4 && ds.all isDigit09)

/-- Length of the lazy `.*?` (DOTALL) of the copyright rule: the smallest
extension after which the lookahead holds (or the text ends). -/
def lazyCopyLen : Str → Nat
  | [] => 0
  | c :: rest => if copyLookahead (c :: rest) then 0 else 1 + lazyCopyLen rest

/-- Length of the full copyright-rule match anchored at the start of the
text: the 16 anchor characters plus the lazy extension. -/
def copyMatchLen (t : Str) : Nat := 16 + lazyCopyLen (t.drop 16)

/-- Scanner of `re.sub(r'Copyright © \d{4}.*?(?=\n\n[A-Z]|\Z)', '', ...)`
with `DOTALL|MULTILINE` (character_voice_manager.py:70-71,
text_tools.py:324-329): each leftmost anchor match is deleted together with
its lazy extension and scanning resumes at the match end; `skip = some k`
records that the current character and the `k` after it still belong to the
match being deleted. -/
def copyCore : Option Nat → Str → Str
  | _, [] => []
  | some k, _ :: rest => copyCore (if k = 0 then none else some (k - 1)) rest
  | none, c :: rest =>
    if copyrightHeaderAt (c :: rest) then
      copyCore (some (copyMatchLen (c :: rest) - 2)) rest
    else
      c :: copyCore none rest

/-- The copyright removal rule. -/
def subCopyright (t : Str) : Str := copyCore none t

/-- `re.sub(r'A C K N O W L E D G M E N T S.*', '', ..., DOTALL|IGNORECASE)`
(character_voice_manager.py:74-75, text_tools.py:334-342): everything from
the first case-insensitive occurrence of the spaced header to the end of the
text is removed. -/
def subAck : Str → Str
  | [] => []
  | c :: rest =>
    if startsWithCI (c :: rest) (str "a c k n o w l e d g m e n t s") then []
    else c :: subAck rest

/-- Number of characters `\d+\.indd` consumes at the start of the text, if
it matches there (greedy digit run, then the literal `.indd`). -/
def inddLen (t : Str) : Option Nat :=
  let run := t.takeWhile isDigit09
  if run.isEmpty then none
  else if startsWithL (t.drop run.length) (str ".indd") then some (run.length + 5)
  else none

/-- Consumes exactly `n` digits at the start of the text. -/
def takeDigits : Nat → Str → Option Str
  | 0, t => some t
  | _ + 1, [] => none
  | n + 1, c :: t => if isDigit09 c then takeDigits n t else none

/-- Tries the digit counts `ns` in order (regex greedy alternatives such as
`\d{1,2}` or `\d{2,4}`), continuing with `k` after the digits; returns the
total number of characters consumed. -/
def dAlts (ns : List Nat) (k : Str → Option Nat) (t : Str) : Option Nat :=
  match ns with
  | [] => none
  | n :: restNs =>
    match takeDigits n t with
    | some r =>
      match k r with
      | some m => some (m + n)
      | none => dAlts restNs k t
    | none => dAlts restNs k t

/-- Consumes a literal `/` and continues with `k`. -/
def slashThen (k : Str → Option Nat) : Str → Option Nat
  | '/' :: r => (k r).map (· + 1)
  | _ => none

/-- `\d{2,4}` at the start of the text. -/
def dateTail3 : Str → Option Nat := dAlts [4, 3, 2] (fun _ => some 0)

/-- `\d{1,2}/\d{2,4}` at the start of the text. -/
def dateTail2 : Str → Option Nat := dAlts [2, 1] (slashThen dateTail3)

/-- `\d{1,2}/\d{1,2}/\d{2,4}` at the start of the text, greedy alternatives
tried longest first as the regex engine does. -/
def parseDate : Str → Option Nat := dAlts [2, 1] (slashThen dateTail2)

/-- `.*?[AP]M` without DOTALL: scan (never across a newline) for `A` or `P`
followed by `M`; returns the number of characters consumed through the `M`. -/
def findAPM : Str → Option Nat
  | [] => none
  | c :: rest =>
    if c = '\n' then none
    else if (c = 'A' || c = 'P') && startsWithL rest (str "M") then some 2
    else (findAPM rest).map (· + 1)

/-- `.*?\d{1,2}/\d{1,2}/\d{2,4}.*?[AP]M` without DOTALL: the earliest
newline-free position where a date matches and an `[AP]M` follows before the
next newline.  (When the date matches but no `[AP]M` follows, the shorter
digit alternatives of the date can only shift its end across digits, which
can never begin `[AP]M`, so moving to the next start position is exactly the
engine's backtracking.) -/
def findDateThenAPM : Str → Option Nat
  | [] => none
  | c :: rest =>
    match parseDate (c :: rest) with
    | some d =>
      match findAPM ((c :: rest).drop d) with
      | some a => some (d + a)
      | none => if c = '\n' then none else (findDateThenAPM rest).map (· + 1)
    | none => if c = '\n' then none else (findDateThenAPM rest).map (· + 1)

/-- `re.sub(r'INT_\d+\.indd.*?\d{1,2}/\d{1,2}/\d{2,4}.*?[AP]M', '', ...)`
(character_voice_manager.py:78, text_tools.py:346-350): each leftmost match
of the page-marker pattern is deleted and scanning resumes after it. -/
def pageCore : Option Nat → Str → Str
  | _, [] => []
  | some k, _ :: rest => pageCore (if k = 0 then none else some (k - 1)) rest
  | none, c :: rest =>
    if startsWithL (c :: rest) (str "INT_") then
      match inddLen ((c :: rest).drop 4) with
      | some n1 =>
        match findDateThenAPM ((c :: rest).drop (4 + n1)) with
        | some n2 => pageCore (some (4 + n1 + n2 - 2)) rest
        | none => c :: pageCore none rest
      | none => c :: pageCore none rest
    else c :: pageCore none rest

/-- The page-marker removal rule. -/
def subPage (t : Str) : Str := pageCore none t

/-- Offset one past the first newline of the text, if any (the span the lazy
`.*?\n` of the readers rule consumes). -/
def newlineOffset : Str → Option Nat
  | [] => none
  | '\n' :: _ => some 1
  | _ :: rest => (newlineOffset rest).map (· + 1)

/-- `re.sub(r'FOR MY READERS.*?\n', '', ..., IGNORECASE)`
(character_voice_manager.py:81, text_tools.py:356-361): each leftmost
case-insensitive occurrence of the literal is deleted through the next
newline; with no newline after it the pattern cannot match. -/
def readersCore : Option Nat → Str → Str
  | _, [] => []
  | some k, _ :: rest => readersCore (if k = 0 then none else some (k - 1)) rest
  | none, c :: rest =>
    if startsWithCI (c :: rest) (str "for my readers") then
      match newlineOffset ((c :: rest).drop 14) with
      | some k => readersCore (some (14 + k - 2)) rest
      | none => c :: readersCore none rest
    else c :: readersCore none rest

/-- The readers-note removal rule. -/
def subReaders (t : Str) : Str := readersCore none t

/-- `re.sub(r'\n{3,}', '\n\n', ...)` (character_voice_manager.py:84,
text_tools.py:366): every maximal run of three or more newlines becomes
exactly two; `k` counts newlines pending ahead of the scan position. -/
def collapseAux (k : Nat) : Str → Str
  | [] => List.replicate (min k 2) '\n'
  | c :: rest =>
    if c = '\n' then collapseAux (k + 1) rest
    else List.replicate (min k 2) '\n' ++ c :: collapseAux 0 rest

/-- Blank-line collapsing. -/
def collapseNewlines (t : Str) : Str := collapseAux 0 t

/-- Detector for a run of three or more consecutive newlines (the matches of
`\n{3,}`); `k` counts the newlines immediately preceding the scan
position. -/
def nlRun (k : Nat) : Str → Bool
  | [] => false
  | c :: rest =>
    if c = '\n' then (if k + 1 ≥ 3 then true else nlRun (k + 1) rest)
    else nlRun 0 rest

/-- `CharacterVoiceManager.filter_text` (src/character_voice_manager.py:57-87):
the four removal rules in source order, then blank-line collapsing, then
`strip()`.  (`filter_unwanted_content`, src/saa/tools/text_tools.py:298-384,
applies the identical rules and cleanup and differs only in the bookkeeping
of `removed_sections`.) -/
def filterText (t : Str) : Str :=
  strip (collapseNewlines (subReaders (subPage (subAck (subCopyright t)))))

/-! ## Speaker detector (src/character_voice_manager.py:89-185,
`detect_speaker`) -/

/-- One registered character (`self.characters[name]`,
character_voice_manager.py:27-42): the registry is a dict keyed by name, so
it is modelled as an insertion-ordered list. -/
structure Character where
  name : Str
  gender : Str
  voice_file : Str
  keywords : List Str
deriving Repr, DecidableEq

/-- `name.split()[0].lower()` as used throughout the detector
(character_voice_manager.py:127 etc.). -/
def firstNameLower (ch : Character) : Str :=
  lowerStr ((pySplit ch.name).headD [])

/-- The regex word class `\w` on the ASCII texts processed here. -/
def isWordChar (c : Char) : Bool :=
  ('a' ≤ c && c ≤ 'z') || ('A' ≤ c && c ≤ 'Z') || ('0' ≤ c && c ≤ '9') || c = '_'

/-- Attempts `verb\s+(\w+)` anchored at the start of the text: the literal
verb, a greedy whitespace run, then the greedy captured word; returns the
capture and the length of the whole match. -/
def verbFirstAt (verb : Str) (t : Str) : Option (Str × Nat) :=
  if startsWithL t verb then
    match (t.drop verb.length).takeWhile pySpace with
    | [] => none
    | ws1 :: wsRest =>
      match ((t.drop verb.length).drop (ws1 :: wsRest).length).takeWhile isWordChar with
      | [] => none
      | w1 :: wRest =>
        some (w1 :: wRest, verb.length + (ws1 :: wsRest).length + (w1 :: wRest).length)
  else none

/-- All captures of `verb\s+(\w+)` over the text, left to right,
non-overlapping (`re.finditer`, character_voice_manager.py:121-124);
`skip = some k` records that the current character and the `k` after it
still belong to the previous match. -/
def verbFirstCore (verb : Str) : Option Nat → Str → List Str
  | _, [] => []
  | some k, _ :: rest => verbFirstCore verb (if k = 0 then none else some (k - 1)) rest
  | none, c :: rest =>
    match verbFirstAt verb (c :: rest) with
    | some (w, len) =>
      if len = 1 then w :: verbFirstCore verb none rest
      else w :: verbFirstCore verb (some (len - 2)) rest
    | none => verbFirstCore verb none rest

/-- All captures of `verb\s+(\w+)`, in position order. -/
def verbFirstCaptures (verb : Str) (t : Str) : List Str :=
  verbFirstCore verb none t

/-- Attempts `(\w+)\s+verb` anchored at the start of the text: a greedy word
run (the capture), a greedy whitespace run, then the literal verb; returns
the capture and the length of the whole match.  (Shrinking the greedy `\w+`
cannot make `\s+` match, so no deeper backtracking arises.) -/
def nameFirstAt (verb : Str) (t : Str) : Option (Str × Nat) :=
  match t.takeWhile isWordChar with
  | [] => none
  | w1 :: wRest =>
    match (t.drop (w1 :: wRest).length).takeWhile pySpace with
    | [] => none
    | ws1 :: wsRest =>
      if startsWithL ((t.drop (w1 :: wRest).length).drop (ws1 :: wsRest).length) verb then
        some (w1 :: wRest, (w1 :: wRest).length + (ws1 :: wsRest).length + verb.length)
      else none

/-- All captures of `(\w+)\s+verb` over the text, left to right,
non-overlapping; `skip` as in `verbFirstCore`. -/
def nameFirstCore (verb : Str) : Option Nat → Str → List Str
  | _, [] => []
  | some k, _ :: rest => nameFirstCore verb (if k = 0 then none else some (k - 1)) rest
  | none, c :: rest =>
    match nameFirstAt verb (c :: rest) with
    | some (w, len) =>
      if len = 1 then w :: nameFirstCore verb none rest
      else w :: nameFirstCore verb (some (len - 2)) rest
    | none => nameFirstCore verb none rest

/-- All captures of `(\w+)\s+verb`, in position order. -/
def nameFirstCaptures (verb : Str) (t : Str) : List Str :=
  nameFirstCore verb none t

/-- The 14 dialogue attribution patterns in source order
(character_voice_manager.py:104-119); `true` marks the `(\w+)\s+verb`
shape. -/
def dialoguePatterns : List (Str × Bool) :=
  [(str "said", false), (str "said", true),
   (str "replied", false), (str "replied", true),
   (str "asked", false), (str "asked", true),
   (str "exclaimed", false), (str "exclaimed", true),
   (str "shouted", false), (str "shouted", true),
   (str "whispered", false), (str "whispered", true),
   (str "muttered", false), (str "muttered", true)]

/-- STRATEGY 1 (character_voice_manager.py:102-129): for each pattern in
order, for each capture in position order, the first registered character
whose lower-cased first name equals the capture wins. -/
def strategy1 (chars : List Character) (textLower : Str) : Option Character :=
  dialoguePatterns.findSome? (fun pat =>
    let caps := if pat.2 then nameFirstCaptures pat.1 textLower
                else verbFirstCaptures pat.1 textLower
    caps.findSome? (fun cap => chars.find? (fun ch => firstNameLower ch == cap)))

/-- STRATEGY 2 (character_voice_manager.py:131-136): the first registered
character whose first name starts the lower-cased first 100 characters. -/
def strategy2 (chars : List Character) (text : Str) : Option Character :=
  let textStart := lowerStr (text.take 100)
  chars.find? (fun ch =>
    startsWithL textStart (firstNameLower ch) ||
    startsWithL textStart (firstNameLower ch ++ [' ']))

/-- STRATEGY 3 (character_voice_manager.py:138-144): the first sentence is
the text before the first `.` (or the first 200 lower-cased characters when
there is no `.`); a character matches if its first name starts that
sentence or appears space-delimited in its first 50 characters. -/
def strategy3 (chars : List Character) (text : Str) : Option Character :=
  let firstSentence :=
    if containsL text ['.'] then lowerStr (text.takeWhile (fun c => c ≠ '.'))
    else (lowerStr text).take 200
  chars.find? (fun ch =>
    startsWithL firstSentence (firstNameLower ch) ||
    containsL (firstSentence.take 50) (' ' :: (firstNameLower ch ++ [' '])))

/-- Feminine pronoun token count of STRATEGY 4
(character_voice_manager.py:150-153): occurrences of `she`, `her`,
`herself` among the whitespace-split tokens of the lower-cased text. -/
def femCount (textLower : Str) : Nat :=
  tokenCount textLower (str "she") + tokenCount textLower (str "her") +
    tokenCount textLower (str "herself")

/-- Masculine pronoun token count (`he`, `him`, `himself`),
character_voice_manager.py:151-154. -/
def mascCount (textLower : Str) : Nat :=
  tokenCount textLower (str "he") + tokenCount textLower (str "him") +
    tokenCount textLower (str "himself")

/-- Per-character score of STRATEGY 4 (character_voice_manager.py:156-169):
the pronoun count matching the character's gender when positive, plus 5 per
keyword occurring in the lower-cased text. -/
def charScore (textLower : Str) (ch : Character) : Nat :=
  (if ch.gender == str "female" && femCount textLower > 0 then femCount textLower
   else if ch.gender == str "male" && mascCount textLower > 0 then mascCount textLower
   else 0) +
  5 * (ch.keywords.filter (fun k => containsL textLower (lowerStr k))).length

/-- STRATEGY 4 (character_voice_manager.py:146-177): when the registry is
non-empty and the maximal score is positive, the first character attaining
it (registry insertion order breaks ties); otherwise nothing. -/
def strategy4 (chars : List Character) (textLower : Str) : Option Character :=
  if chars.isEmpty then none
  else
    let maxScore := (chars.map (charScore textLower)).foldl max 0
    if maxScore > 0 then chars.find? (fun ch => charScore textLower ch == maxScore)
    else none

/-- `CharacterVoiceManager.detect_speaker`
(src/character_voice_manager.py:89-185): the four strategies in priority
order, then the narrator fallback on pronoun dominance with the female
narrator as the tie/absence default.  Returns `(character_name,
voice_file)`. -/
def detectSpeaker (chars : List Character) (text : Str) : Str × Str :=
  let textLower := lowerStr text
  match strategy1 chars textLower with
  | some ch => (ch.name, ch.voice_file)
  | none =>
  match strategy2 chars text with
  | some ch => (ch.name, ch.voice_file)
  | none =>
  match strategy3 chars text with
  | some ch => (ch.name, ch.voice_file)
  | none =>
  match strategy4 chars textLower with
  | some ch => (ch.name, ch.voice_file)
  | none =>
    if femCount textLower > mascCount textLower then
      (str "Narrator (Female)", str "reference_audio/female.wav")
    else if mascCount textLower > femCount textLower then
      (str "Narrator (Male)", str "reference_audio/male.wav")
    else
      (str "Narrator (Female)", str "reference_audio/female.wav")

/-! ## Paragraph-level splitter
(src/character_voice_manager.py:187-288, `smart_split_by_speaker`) -/

/-- Python `text.split(sep)` for a non-empty separator: every non-overlapping
occurrence separates two pieces and empty pieces are kept.  The separator is
passed as head and tail so it is non-empty by construction. -/
def pySplitOnCore (s0 : Char) (sRest : Str) : Option Nat → Str → Str → List Str
  | _, cur, [] => [cur.reverse]
  | some k, cur, _ :: rest =>
    pySplitOnCore s0 sRest (if k = 0 then none else some (k - 1)) cur rest
  | none, cur, c :: rest =>
    if startsWithL (c :: rest) (s0 :: sRest) then
      cur.reverse ::
        (if sRest.length = 0 then pySplitOnCore s0 sRest none [] rest
         else pySplitOnCore s0 sRest (some (sRest.length - 1)) [] rest)
    else pySplitOnCore s0 sRest none (c :: cur) rest

/-- Python `text.split(sep)` (used with `'\n\n'` at
character_voice_manager.py:200 and with `'|'` at line 264). -/
def pySplitOn (s0 : Char) (sRest : Str) (t : Str) : List Str :=
  pySplitOnCore s0 sRest none [] t

/-- Python `text.replace(old, new)` for a non-empty `old`: non-overlapping
left-to-right replacement (character_voice_manager.py:264). -/
def pyReplaceCore (o0 : Char) (oRest : Str) (new : Str) : Option Nat → Str → Str
  | _, [] => []
  | some k, _ :: rest =>
    pyReplaceCore o0 oRest new (if k = 0 then none else some (k - 1)) rest
  | none, c :: rest =>
    if startsWithL (c :: rest) (o0 :: oRest) then
      new ++
        (if oRest.length = 0 then pyReplaceCore o0 oRest new none rest
         else pyReplaceCore o0 oRest new (some (oRest.length - 1)) rest)
    else c :: pyReplaceCore o0 oRest new none rest

/-- Python `text.replace(old, new)` for a non-empty `old`: non-overlapping
left-to-right replacement. -/
def pyReplace (o0 : Char) (oRest : Str) (new : Str) (t : Str) : Str :=
  pyReplaceCore o0 oRest new none t

/-- Python `'\n\n'.join(pieces)`. -/
def joinNN : List Str → Str
  | [] => []
  | [x] => x
  | x :: y :: rest => x ++ '\n' :: '\n' :: joinNN (y :: rest)

/-- `MAX_CHARS_PER_CHUNK` (character_voice_manager.py:209). -/
def MAX_CHARS_PER_CHUNK : Nat := 800

/-- The paragraph-start speaker detection of the accumulation loop
(character_voice_manager.py:215-225): the first registered character whose
first name starts the lower-cased first 50 characters of the paragraph or
appears space-delimited in their first 30 characters. -/
def paraSpeaker (chars : List Character) (para : Str) : Option Character :=
  let paraStart := lowerStr (para.take 50)
  chars.find? (fun ch =>
    startsWithL paraStart (firstNameLower ch) ||
    containsL (paraStart.take 30) (' ' :: (firstNameLower ch ++ [' '])))

/-- Loop state of character_voice_manager.py:202-205. -/
structure SmartAcc where
  chunks : List Str
  currentChunk : List Str
  currentWords : Nat
  currentSpeaker : Option Str
deriving Repr, DecidableEq

/-- One iteration of the paragraph loop (character_voice_manager.py:211-251):
split before the paragraph when a different speaker starts it, or when
appending would exceed `MAX_CHARS_PER_CHUNK` characters (of the chunk as
already joined, the joining `'\n\n'` for the new paragraph not counted) or
`max_chunk_size` words. -/
def smartStep (chars : List Character) (maxChunkSize : Nat) (acc : SmartAcc)
    (para : Str) : SmartAcc :=
  let paraWords := (pySplit para).length
  let detected := paraSpeaker chars para
  let split1 : Bool :=
    match detected with
    | some ch => !acc.currentChunk.isEmpty && (some ch.name != acc.currentSpeaker)
    | none => false
  let newSpeaker :=
    match detected with
    | some ch => some ch.name
    | none => acc.currentSpeaker
  let currentChunkChars := (joinNN acc.currentChunk).length
  let shouldSplit : Bool := split1 ||
    (decide (currentChunkChars + para.length > MAX_CHARS_PER_CHUNK) &&
      !acc.currentChunk.isEmpty) ||
    (decide (acc.currentWords + paraWords > maxChunkSize) && !acc.currentChunk.isEmpty)
  if shouldSplit then
    { chunks := acc.chunks ++ [joinNN acc.currentChunk], currentChunk := [para],
      currentWords := paraWords, currentSpeaker := newSpeaker }
  else
    { chunks := acc.chunks, currentChunk := acc.currentChunk ++ [para],
      currentWords := acc.currentWords + paraWords, currentSpeaker := newSpeaker }

/-- The sentence list the post-processing derives from an oversized chunk
(character_voice_manager.py:264): three sequential `replace` calls insert
`|` after `! `, `? `, `. `, then the chunk is split on `|`. -/
def postSentences (chunk : Str) : List Str :=
  pySplitOn '|' []
    (pyReplace '.' [' '] (str ".|")
      (pyReplace '?' [' '] (str "?|")
        (pyReplace '!' [' '] (str "!|") chunk)))

/-- Sub-chunk packing of the post-processing (character_voice_manager.py:
266-286): stripped non-empty sentences are packed greedily by character
count (join spaces again not counted). -/
def postPackStep (acc : List Str × List Str × Nat) (sentence : Str) :
    List Str × List Str × Nat :=
  let s := strip sentence
  if s.isEmpty then acc
  else if acc.2.2 + s.length > MAX_CHARS_PER_CHUNK ∧ acc.2.1 ≠ [] then
    (acc.1 ++ [joinSp acc.2.1], [s], s.length)
  else
    (acc.1, acc.2.1 ++ [s], acc.2.2 + s.length)

/-- Post-processing of one emitted chunk (character_voice_manager.py:257-286):
chunks within the limit pass through; longer ones are re-split at sentence
boundaries and greedily repacked. -/
def postProcessChunk (chunk : Str) : List Str :=
  if chunk.length ≤ MAX_CHARS_PER_CHUNK then [chunk]
  else
    let r := (postSentences chunk).foldl postPackStep ([], [], 0)
    r.1 ++ (if r.2.1 ≠ [] then [joinSp r.2.1] else [])

/-- `CharacterVoiceManager.smart_split_by_speaker`
(src/character_voice_manager.py:187-288): strip-and-drop-empty paragraph
split on blank lines, the speaker/size accumulation loop, final flush, then
per-chunk post-processing. -/
def smartSplitBySpeaker (chars : List Character) (text : Str)
    (maxChunkSize : Nat) : List Str :=
  let paragraphs := ((pySplitOn '\n' ['\n'] text).map strip).filter (fun p => !p.isEmpty)
  let acc := paragraphs.foldl (smartStep chars maxChunkSize)
    { chunks := [], currentChunk := [], currentWords := 0, currentSpeaker := none }
  let chunks := acc.chunks ++ (if acc.currentChunk ≠ [] then [joinNN acc.currentChunk] else [])
  chunks.flatMap postProcessChunk

/-! ## Concrete inputs used by the theorems -/

/-- A job state after segmentation: 10 segments, segments 0-2 already
completed (the resume scenario of spec §8). -/
def resumeState : JobState :=
  { total_segments := 10, completed_segments := [0, 1, 2],
    failed_segments := [], stage := .synthesis }

/-- A 100-character sentence (99 `a`s and a period). -/
def sentenceA : Str := List.replicate 99 'a' ++ ['.']

/-- A 99-character sentence (98 `a`s and a period). -/
def sentenceB : Str := List.replicate 98 'a' ++ ['.']

/-- A 1,600-character text with no newline at all (hence no paragraph
break): the 100-character sentence followed by fifteen 99-character
sentences, single-space separated. -/
def text1600 : Str := joinSp (sentenceA :: List.replicate 15 sentenceB)

/-! ## Theorems -/

/-- C1: the spec says that for every pending segment the executor, after the
synthesis call returns, calls `markCompleted`/`markFailed` and persists the
state before moving on.  The code cannot: the call at resume_tools.py:98
passes the keywords `chunk_id` and `job_state_path`, which
`synthesize_audio` (tts_tools.py:173) does not accept, so the first pending
chunk raises `TypeError`, the blanket handler returns an error result, and
the job state is left exactly as loaded — no mark call, no persistence (no
call site of `mark_segment_completed`/`mark_segment_failed` exists in the
executor, and `JobState` has no save routine).  Evaluated at the failing
input: 10 segments with 0-2 completed, whatever the engine would answer. -/
theorem c1_executor_never_marks_or_persists :
    resumeSynthCallOk = false ∧
    (synthesizeRemainingChunks resumeState (List.range 10) (fun _ => true)).statusSuccess
      = false ∧
    (synthesizeRemainingChunks resumeState (List.range 10) (fun _ => true)).finalState
      = resumeState ∧
    (synthesizeRemainingChunks resumeState (List.range 10) (fun _ => false)).finalState
      = resumeState ∧
    (synthesizeRemainingChunks resumeState (List.range 10) (fun _ => true)).chunksSynthesized
      = 0 := by
  decide

/-- C2: the spec says that with `totalSegments = 10` and
`completedIds = {0,1,2}` the executor synthesizes exactly segments 3-9 in
ascending order.  The pending-chunk selection is indeed exactly `[3..9]` in
ascending order (both in `get_chunks_to_synthesize` and in the executor's
own filter), but the executor never invokes synthesis for any of them: its
call to `synthesize_audio` does not bind (`TypeError` on the `chunk_id` /
`job_state_path` keywords) and the run aborts on the first pending chunk. -/
theorem c2_executor_invokes_no_synthesis :
    getChunksToSynthesize resumeState.completed_segments (List.range 10)
      = [3, 4, 5, 6, 7, 8, 9] ∧
    (synthesizeRemainingChunks resumeState (List.range 10) (fun _ => true)).synthesisInvoked
      = [] ∧
    (synthesizeRemainingChunks resumeState (List.range 10) (fun _ => true)).statusSuccess
      = false := by
  decide

/-- C8: the spec (and the repository's own unit test
tests/unit/test_text_tools.py:76-81) says the empty input yields an empty
segment list; `segment_text` instead flushes the singleton chunk `[""]`
built from the single empty sentence `re.split` returns, producing one
segment with empty text.  (`smart_split_by_speaker` does return the empty
list on the empty input.) -/
theorem c8_empty_input_yields_one_empty_segment :
    segmentTexts [] SAFE_SEGMENT_LENGTH = [[]] ∧
    (segmentTexts [] SAFE_SEGMENT_LENGTH).length = 1 ∧
    smartSplitBySpeaker [] [] 250 = [] := by
  decide

/-- C4: the spec's bound invariant allows a segment to exceed `maxChars`
only when it is a single unsplittable sentence.  The loop of `segment_text`
compares `current_length + len(piece)` against `max_chars` but
`current_length` is the sum of the piece lengths only — the spaces
`' '.join` later inserts are not counted — so a flushed multi-sentence
chunk can exceed the limit: with `max_chars = 9` the two sentences
`aaaa.` and `bbb.` (summed length 9) are packed into the single
10-character segment `aaaa. bbb.`. -/
theorem c4_bound_violated_by_multi_sentence_segment :
    segmentTexts (str "aaaa. bbb.") 9 = [str "aaaa. bbb."] ∧
    (str "aaaa. bbb.").length = 10 ∧
    splitSentences (str "aaaa. bbb.") = [str "aaaa.", str "bbb."] := by
  decide

set_option maxRecDepth 40000 in
/-- C3, counterexample: a 1,600-character sentence-structured text with no
paragraph break, segmented with `maxChars = 800`, does not yield 2 segments
(it yields 8, because 800 exceeds `MAX_SEGMENT_LENGTH = 250` and is replaced
by `SAFE_SEGMENT_LENGTH = 200`). -/
theorem c3_not_two_segments :
    (segmentTexts text1600 800).length ≠ 2 ∧
    text1600.length = 1600 ∧
    text1600.all (fun c => c ≠ '
') = true := by
  decide

set_option maxRecDepth 40000 in
/-- C3, amended: a caller-supplied `maxChars = 800` is above
`MAX_SEGMENT_LENGTH = 250` and is replaced by `SAFE_SEGMENT_LENGTH = 200`
(text_tools.py:177-178), so the 1,600-character input is packed greedily at
sentence boundaries against the 200-character limit, giving 8 segments of
at most 200 characters each. -/
theorem c3_cap_and_greedy_packing :
    effectiveMax 800 = SAFE_SEGMENT_LENGTH ∧
    segmentTexts text1600 800 = segmentTexts text1600 200 ∧
    (segmentTexts text1600 800).length = 8 ∧
    (segmentTexts text1600 800).all (fun s => decide (s.length ≤ 200)) = true := by
  decide

/-- An index is in the list produced by the conditional append of the mark
operations. -/
theorem mem_if_append_self (l : List Nat) (i : Nat) :
    i ∈ (if i ∈ l then l else l ++ [i]) := by
  split
  · assumption
  · simp

/-- An index is not in the list produced by the conditional erase of the
mark operations, provided the list had no duplicates. -/
theorem not_mem_if_erase_self (l : List Nat) (i : Nat) (h : l.Nodup) :
    i ∉ (if i ∈ l then l.erase i else l) := by
  split
  · intro hm
    exact ((List.Nodup.mem_erase_iff h).mp hm).1 rfl
  · assumption

/-- The conditional append preserves duplicate-freeness. -/
theorem nodup_if_append (l : List Nat) (i : Nat) (h : l.Nodup) :
    (if i ∈ l then l else l ++ [i]).Nodup := by
  split
  · exact h
  · simp [List.nodup_append, h, *]

/-- The conditional erase preserves duplicate-freeness. -/
theorem nodup_if_erase (l : List Nat) (i : Nat) (h : l.Nodup) :
    (if i ∈ l then l.erase i else l).Nodup := by
  split
  · exact h.erase i
  · exact h

/-- Membership in the conditional erase implies membership in the original
list. -/
theorem mem_of_if_erase {l : List Nat} {i j : Nat}
    (h : j ∈ (if i ∈ l then l.erase i else l)) : j ∈ l := by
  by_cases hc : i ∈ l
  · rw [if_pos hc] at h; exact List.mem_of_mem_erase h
  · rwa [if_neg hc] at h

/-- Membership in the conditional append comes from the original list or is
the appended index. -/
theorem mem_of_if_append {l : List Nat} {i j : Nat}
    (h : j ∈ (if i ∈ l then l else l ++ [i])) : j ∈ l ∨ j = i := by
  by_cases hc : i ∈ l
  · rw [if_pos hc] at h; exact Or.inl h
  · rw [if_neg hc] at h
    simpa using h

/-- A mark operation applied to a state that already records the index the
requested way is the identity. -/
theorem markSegmentCompleted_fixed (x : JobState) (i : Nat)
    (h1 : i ∈ x.completed_segments) (h2 : i ∉ x.failed_segments) :
    markSegmentCompleted x i = x := by
  simp [markSegmentCompleted, if_pos h1, if_neg h2]

/-- Counterpart of `markSegmentCompleted_fixed` for failure marks. -/
theorem markSegmentFailed_fixed (x : JobState) (i : Nat)
    (h1 : i ∈ x.failed_segments) (h2 : i ∉ x.completed_segments) :
    markSegmentFailed x i = x := by
  simp [markSegmentFailed, if_pos h1, if_neg h2]

/-- C10: on duplicate-free segment lists the two mark operations are
idempotent, keep the lists duplicate-free, and mutually cancel: after
`mark_segment_completed i` the index is in the completed list and not in
the failed list, and symmetrically, so the most recent mark for an index
determines which list holds it. -/
theorem c10_marks_idempotent_and_cancelling (s : JobState) (i : Nat)
    (hc : s.completed_segments.Nodup) (hf : s.failed_segments.Nodup) :
    markSegmentCompleted (markSegmentCompleted s i) i = markSegmentCompleted s i ∧
    markSegmentFailed (markSegmentFailed s i) i = markSegmentFailed s i ∧
    (markSegmentCompleted s i).completed_segments.Nodup ∧
    (markSegmentCompleted s i).failed_segments.Nodup ∧
    (markSegmentFailed s i).completed_segments.Nodup ∧
    (markSegmentFailed s i).failed_segments.Nodup ∧
    i ∈ (markSegmentCompleted s i).completed_segments ∧
    i ∉ (markSegmentCompleted s i).failed_segments ∧
    i ∈ (markSegmentFailed s i).failed_segments ∧
    i ∉ (markSegmentFailed s i).completed_segments := by
  have hcc : i ∈ (markSegmentCompleted s i).completed_segments :=
    mem_if_append_self _ i
  have hcf : i ∉ (markSegmentCompleted s i).failed_segments :=
    not_mem_if_erase_self _ i hf
  have hff : i ∈ (markSegmentFailed s i).failed_segments :=
    mem_if_append_self _ i
  have hfc : i ∉ (markSegmentFailed s i).completed_segments :=
    not_mem_if_erase_self _ i hc
  refine ⟨markSegmentCompleted_fixed _ i hcc hcf,
    markSegmentFailed_fixed _ i hff hfc,
    nodup_if_append _ i hc, nodup_if_erase _ i hf,
    nodup_if_erase _ i hc, nodup_if_append _ i hf,
    hcc, hcf, hff, hfc⟩

/-- C10, witness: the theorem applied to the concrete state with 5 segments,
completed `[0, 2]`, failed `[1]`, marking index `1`. -/
theorem c10_marks_witness :
    ([0, 2] : List Nat).Nodup ∧ ([1] : List Nat).Nodup ∧
    (markSegmentCompleted (markSegmentCompleted
        { total_segments := 5, completed_segments := [0, 2],
          failed_segments := [1], stage := .pending } 1) 1 =
      markSegmentCompleted
        { total_segments := 5, completed_segments := [0, 2],
          failed_segments := [1], stage := .pending } 1) ∧
    1 ∈ (markSegmentCompleted
        { total_segments := 5, completed_segments := [0, 2],
          failed_segments := [1], stage := .pending } 1).completed_segments :=
  ⟨by decide, by decide,
    (c10_marks_idempotent_and_cancelling
      { total_segments := 5, completed_segments := [0, 2],
        failed_segments := [1], stage := .pending } 1
      (by decide) (by decide)).1,
    (c10_marks_idempotent_and_cancelling
      { total_segments := 5, completed_segments := [0, 2],
        failed_segments := [1], stage := .pending } 1
      (by decide) (by decide)).2.2.2.2.2.2.1⟩

/-- C6, counterexample: from a well-formed state in the SYNTHESIS stage,
`advance_stage(PENDING)` moves the stage strictly backward in the pipeline
order (and PENDING is neither FAILED nor CANCELLED), and
`mark_segment_completed(42)` on a 10-segment job records an index outside
`[0, totalSegments)` — the operations do not preserve the claimed
invariants. -/
theorem c6_ops_violate_claimed_invariants :
    ({ total_segments := 10, completed_segments := [], failed_segments := [],
        stage := .synthesis } : JobState).wf ∧
    (advanceStage
      { total_segments := 10, completed_segments := [], failed_segments := [],
        stage := .synthesis } .pending).stage = .pending ∧
    stageRank .pending < stageRank .synthesis ∧
    (.pending : ProcessingStage) ≠ .failed ∧
    (.pending : ProcessingStage) ≠ .cancelled ∧
    (markSegmentCompleted
      { total_segments := 10, completed_segments := [], failed_segments := [],
        stage := .synthesis } 42).completed_segments = [42] ∧
    ¬ (42 < (10 : Nat)) := by
  refine ⟨?_, by decide, by decide, by decide, by decide, by decide, by decide⟩
  unfold JobState.wf
  decide

/-- C6, amended: for an in-range index the mark operations preserve
well-formedness (duplicate-freeness, disjointness and containment — with no
bounds check in the code, containment holds only for in-range indices), and
`advance_stage` leaves the segment bookkeeping untouched while setting the
stage unconditionally; the completed list never shrinks under
`mark_segment_completed` or `advance_stage`. -/
theorem c6_amended_invariants (s : JobState) (i : Nat) (st : ProcessingStage)
    (hwf : s.wf) (hi : i < s.total_segments) :
    (markSegmentCompleted s i).wf ∧
    (markSegmentFailed s i).wf ∧
    (advanceStage s st).completed_segments = s.completed_segments ∧
    (advanceStage s st).failed_segments = s.failed_segments ∧
    (advanceStage s st).total_segments = s.total_segments ∧
    (advanceStage s st).stage = st ∧
    s.completed_segments.length ≤ (markSegmentCompleted s i).completed_segments.length := by
  obtain ⟨h1, h2, h3, h4, h5⟩ := hwf
  refine ⟨⟨nodup_if_append _ i h1, nodup_if_erase _ i h2, ?_, ?_, ?_⟩,
    ⟨nodup_if_erase _ i h1, nodup_if_append _ i h2, ?_, ?_, ?_⟩,
    rfl, rfl, rfl, rfl, ?_⟩
  · intro j hj
    rcases mem_of_if_append hj with hjc | rfl
    · intro hjf
      exact h3 j hjc (mem_of_if_erase hjf)
    · exact not_mem_if_erase_self _ j h2
  · intro j hj
    rcases mem_of_if_append hj with hjc | rfl
    · exact h4 j hjc
    · exact hi
  · intro j hj
    exact h5 j (mem_of_if_erase hj)
  · intro j hj
    have hjc := mem_of_if_erase hj
    intro hjf
    rcases mem_of_if_append hjf with hjf2 | rfl
    · exact h3 j hjc hjf2
    · exact not_mem_if_erase_self _ j h1 hj
  · intro j hj
    exact h4 j (mem_of_if_erase hj)
  · intro j hj
    rcases mem_of_if_append hj with hjf | rfl
    · exact h5 j hjf
    · exact hi
  · by_cases hc : i ∈ s.completed_segments
    · simp [markSegmentCompleted, if_pos hc]
    · simp [markSegmentCompleted, if_neg hc]

/-- C6, witness: the amended theorem applied to a concrete well-formed
state, index 2 and the AUDIO_MERGE stage. -/
theorem c6_amended_witness :
    ({ total_segments := 10, completed_segments := [0], failed_segments := [1],
        stage := .synthesis } : JobState).wf ∧ 2 < 10 ∧
    (markSegmentCompleted
      { total_segments := 10, completed_segments := [0], failed_segments := [1],
        stage := .synthesis } 2).wf :=
  ⟨by unfold JobState.wf; decide, by decide,
    (c6_amended_invariants
      { total_segments := 10, completed_segments := [0], failed_segments := [1],
        stage := .synthesis } 2 .audio_merge
      (by unfold JobState.wf; decide) (by decide)).1⟩

/-- C9: whenever no registered speaker is matched by any of the four
higher-priority strategies, the fallback narrator of `detect_speaker` is
decided by pronoun dominance: with three feminine and one masculine pronoun
token it is the female narrator, and on a tie (including both counts zero)
it defaults to the female narrator as well. -/
theorem c9_fallback_narrator_defaults_female (chars : List Character) (text : Str)
    (h1 : strategy1 chars (lowerStr text) = none)
    (h2 : strategy2 chars text = none)
    (h3 : strategy3 chars text = none)
    (h4 : strategy4 chars (lowerStr text) = none) :
    (femCount (lowerStr text) = 3 → mascCount (lowerStr text) = 1 →
      detectSpeaker chars text
        = (str "Narrator (Female)", str "reference_audio/female.wav")) ∧
    (femCount (lowerStr text) = mascCount (lowerStr text) →
      detectSpeaker chars text
        = (str "Narrator (Female)", str "reference_audio/female.wav")) := by
  constructor
  · intro hf hm
    simp [detectSpeaker, h1, h2, h3, h4, hf, hm]
  · intro he
    simp [detectSpeaker, h1, h2, h3, h4, he]

/-- C9, witness: the theorem applied to the empty registry and the text
`she her herself him` (three feminine tokens, one masculine token). -/
theorem c9_fallback_witness :
    strategy1 [] (lowerStr (str "she her herself him")) = none ∧
    strategy2 [] (str "she her herself him") = none ∧
    strategy3 [] (str "she her herself him") = none ∧
    strategy4 [] (lowerStr (str "she her herself him")) = none ∧
    femCount (lowerStr (str "she her herself him")) = 3 ∧
    mascCount (lowerStr (str "she her herself him")) = 1 ∧
    detectSpeaker [] (str "she her herself him")
      = (str "Narrator (Female)", str "reference_audio/female.wav") :=
  ⟨by decide, by decide, by decide, by decide, by decide, by decide,
    (c9_fallback_narrator_defaults_female [] (str "she her herself him")
      (by decide) (by decide) (by decide) (by decide)).1 (by decide) (by decide)⟩

/-- The split scanner always returns at least one piece. -/
theorem splitCore_ne_nil (term : Char → Bool) :
    ∀ (t : Str) (sk : Bool) (acc : Str), splitCore term sk acc t ≠ [] := by
  intro t
  induction t with
  | nil => intro sk acc; simp [splitCore]
  | cons c rest ih =>
    intro sk acc
    simp only [splitCore]
    split
    · exact ih true acc
    · split
      · simp
      · exact ih false (c :: acc)

/-- `joinSp` over a cons with a non-empty tail inserts one space. -/
theorem joinSp_cons_of_ne_nil (x : Str) (l : List Str) (h : l ≠ []) :
    joinSp (x :: l) = x ++ ' ' :: joinSp l := by
  cases l with
  | nil => exact absurd rfl h
  | cons y l' => rfl

/-- Joining the pieces of the split scanner with single spaces equals the
direct whitespace normalizer: both replace each separating whitespace run
by one space. -/
theorem joinSp_splitCore (term : Char → Bool) :
    ∀ (t : Str) (sk : Bool) (acc : Str),
      joinSp (splitCore term sk acc t) = normCore term sk acc t := by
  intro t
  induction t with
  | nil => intro sk acc; rfl
  | cons c rest ih =>
    intro sk acc
    simp only [splitCore, normCore]
    split
    · exact ih true acc
    · split
      · rw [joinSp_cons_of_ne_nil _ _ (splitCore_ne_nil term rest true []),
          ih true []]
      · exact ih false (c :: acc)

/-- Split-then-join equals the direct normalizer. -/
theorem joinSp_splitAfter (term : Char → Bool) (t : Str) :
    joinSp (splitAfter term t) = normAfter term t :=
  joinSp_splitCore term t false []

/-- `joinSp` distributes over append of non-empty lists, inserting one
space at the junction. -/
theorem joinSp_append (xs ys : List Str) (hx : xs ≠ []) (hy : ys ≠ []) :
    joinSp (xs ++ ys) = joinSp xs ++ ' ' :: joinSp ys := by
  induction xs with
  | nil => exact absurd rfl hx
  | cons x xs' ih =>
    cases xs' with
    | nil => simpa using joinSp_cons_of_ne_nil x ys hy
    | cons x2 xs'' =>
      have h2 : (x2 :: xs'') ++ ys ≠ [] := by simp
      calc joinSp ((x :: x2 :: xs'') ++ ys)
          = x ++ ' ' :: joinSp ((x2 :: xs'') ++ ys) := by
            rw [List.cons_append, joinSp_cons_of_ne_nil _ _ h2]
        _ = x ++ ' ' :: (joinSp (x2 :: xs'') ++ ' ' :: joinSp ys) := by
            rw [ih (by simp)]
        _ = (x ++ ' ' :: joinSp (x2 :: xs'')) ++ ' ' :: joinSp ys := by simp
        _ = joinSp (x :: x2 :: xs'') ++ ' ' :: joinSp ys := by rfl

/-- One step of the shared flush-or-append loop preserves the loop
invariant. -/
theorem segInv_step (m : Nat) (a : SegAcc) (ps : List Str) (p : Str)
    (h : SegInv a ps) : SegInv (processPiece m a p) (ps ++ [p]) := by
  by_cases hcond : a.currentLength + p.length > m ∧ a.currentChunk ≠ []
  · rw [processPiece, if_pos hcond]
    rcases h with ⟨hseg, hcur⟩ | ⟨ps₁, ps₂, hps, h1, h2, hcur, hseg, hjoin⟩
    · right
      refine ⟨ps, [p], rfl, ?_, by simp, rfl, by simp, ?_⟩
      · rw [← hcur]; exact hcond.2
      · rw [hseg, hcur]; rfl
    · right
      refine ⟨ps₁ ++ ps₂, [p], by rw [hps], ?_, by simp, rfl, by simp, ?_⟩
      · intro hmt
        exact h1 (List.append_eq_nil.mp hmt).1
      · show joinSp (a.segments ++ [joinSp a.currentChunk]) = _
        rw [joinSp_append a.segments [joinSp a.currentChunk] hseg (by simp),
          joinSp_append ps₁ ps₂ h1 h2, hjoin, hcur]
        rfl
  · rw [processPiece, if_neg hcond]
    rcases h with ⟨hseg, hcur⟩ | ⟨ps₁, ps₂, hps, h1, h2, hcur, hseg, hjoin⟩
    · left
      exact ⟨hseg, by rw [hcur]⟩
    · right
      exact ⟨ps₁, ps₂ ++ [p], by rw [hps, List.append_assoc], h1, by simp,
        by rw [hcur], hseg, hjoin⟩

/-- The invariant is preserved by folding the shared step over any list of
pieces. -/
theorem segInv_foldl (m : Nat) :
    ∀ (qs : List Str) (a : SegAcc) (ps : List Str), SegInv a ps →
      SegInv (List.foldl (processPiece m) a qs) (ps ++ qs) := by
  intro qs
  induction qs with
  | nil => intro a ps h; simpa using h
  | cons q qs' ih =>
    intro a ps h
    have h2 := ih (processPiece m a q) (ps ++ [q]) (segInv_step m a ps q h)
    simpa [List.append_assoc] using h2

/-- At the final flush, the invariant yields the round-trip equation. -/
theorem joinSp_segFinal (a : SegAcc) (ps : List Str) (h : SegInv a ps) :
    joinSp (segFinal a) = joinSp ps := by
  rcases h with ⟨hseg, hcur⟩ | ⟨ps₁, ps₂, hps, h1, h2, hcur, hseg, hjoin⟩
  · rw [segFinal, hseg, hcur]
    by_cases hp : ps = []
    · simp [hp]
    · rw [if_pos hp, List.nil_append]
      rfl
  · rw [segFinal, hcur, if_pos h2, hps,
      joinSp_append a.segments [joinSp ps₂] hseg (by simp),
      joinSp_append ps₁ ps₂ h1 h2, hjoin]
    rfl

/-- The two-level sentence loop equals the flat fold over the piece
stream. -/
theorem foldl_processSentence_eq_pieces (m : Nat) :
    ∀ (ss : List Str) (a : SegAcc),
      List.foldl (processSentence m) a ss = List.foldl (processPiece m) a (piecesOf m ss) := by
  intro ss
  induction ss with
  | nil => intro a; rfl
  | cons s ss' ih =>
    intro a
    have hone : processSentence m a s
        = List.foldl (processPiece m) a (if s.length > m then splitClauses s else [s]) := by
      rw [processSentence]
      by_cases hs : s.length > m
      · rw [if_pos hs, if_pos hs]
      · rw [if_neg hs, if_neg hs]
        rfl
    calc List.foldl (processSentence m) a (s :: ss')
        = List.foldl (processSentence m) (processSentence m a s) ss' := rfl
      _ = List.foldl (processPiece m) (processSentence m a s) (piecesOf m ss') := ih _
      _ = List.foldl (processPiece m)
            (List.foldl (processPiece m) a (if s.length > m then splitClauses s else [s]))
            (piecesOf m ss') := by rw [hone]
      _ = List.foldl (processPiece m) a
            ((if s.length > m then splitClauses s else [s]) ++ piecesOf m ss') := by
            rw [List.foldl_append]
      _ = List.foldl (processPiece m) a (piecesOf m (s :: ss')) := rfl

/-- C5, counterexample: on the input `A.\nB.` the segmenter returns the
single segment `A. B.`, which differs from the input — so joining the
segment texts (one segment, no separator, hence no segment boundary at
which to normalize) does not reproduce the input: the newline between the
two sentences was normalized inside the segment, not at a segment
boundary. -/
theorem c5_single_segment_alters_interior_whitespace :
    segmentTexts (str "A.\nB.") 200 = [str "A. B."] ∧
    str "A. B." ≠ str "A.\nB." := by
  decide

/-- C5, amended: joining the segment texts with single spaces reproduces
the input's piece stream joined with single spaces — every whitespace run
after a sentence terminator (and, inside sentences longer than the
effective limit, after a comma or semicolon) becomes one space, whether or
not a segment boundary falls there; in particular split-then-join equals
the direct sentence-boundary whitespace normalizer. -/
theorem c5_roundtrip_modulo_sentence_boundaries (t : Str) (m : Nat) :
    joinSp (segmentTexts t m)
      = joinSp (piecesOf (effectiveMax m) (splitSentences t)) ∧
    joinSp (splitSentences t) = normAfter sentTerm t := by
  constructor
  · show joinSp (segFinal (List.foldl (processSentence (effectiveMax m)) ⟨[], [], 0⟩
      (splitSentences t))) = _
    rw [foldl_processSentence_eq_pieces]
    have hinv := segInv_foldl (effectiveMax m)
      (piecesOf (effectiveMax m) (splitSentences t))
      { segments := [], currentChunk := [], currentLength := 0 } []
      (Or.inl ⟨rfl, rfl⟩)
    rw [List.nil_append] at hinv
    exact joinSp_segFinal _ _ hinv
  · exact joinSp_splitAfter sentTerm t

/-- Lower-casing maps no other character to a newline. -/
theorem lowerChar_eq_newline_iff (c : Char) : lowerChar c = '\n' ↔ c = '\n' := by
  unfold lowerChar
  split <;> first | rfl | decide

/-- A prefix of the text stays a prefix after lower-casing both sides. -/
theorem startsWithL_lower {t p : Str} (h : startsWithL t p = true) :
    startsWithL (lowerStr t) (lowerStr p) = true := by
  induction p generalizing t with
  | nil => cases t <;> rfl
  | cons d p' ih =>
    cases t with
    | nil => exact absurd h (by simp [startsWithL])
    | cons c t' =>
      simp only [startsWithL, Bool.and_eq_true, decide_eq_true_eq] at h
      simp only [lowerStr, List.map_cons, startsWithL, Bool.and_eq_true,
        decide_eq_true_eq]
      exact ⟨by rw [h.1], ih h.2⟩

/-- The case-insensitive prefix test is the plain prefix test on the
lower-cased text. -/
theorem startsWithCI_eq (t p : Str) :
    startsWithCI t p = startsWithL (lowerStr t) p := by
  induction p generalizing t with
  | nil => cases t <;> rfl
  | cons d p' ih =>
    cases t with
    | nil => rfl
    | cons c t' =>
      simp only [startsWithCI, lowerStr, List.map_cons, startsWithL]
      rw [ih t']
      rfl

/-- The substring test of a cons splits into the prefix test here and the
substring test on the tail. -/
theorem containsL_cons_false {c : Char} {t n : Str}
    (h : containsL (c :: t) n = false) :
    startsWithL (c :: t) n = false ∧ containsL t n = false := by
  simp only [containsL, Bool.or_eq_false_iff] at h
  exact h

/-- The prefix test characterizes list decomposition. -/
theorem startsWithL_iff (t p : Str) :
    startsWithL t p = true ↔ ∃ r, t = p ++ r := by
  induction p generalizing t with
  | nil =>
    constructor
    · intro _; exact ⟨t, by cases t <;> rfl⟩
    · intro _; cases t <;> rfl
  | cons d p' ih =>
    cases t with
    | nil =>
      simp only [startsWithL, List.cons_append]
      constructor
      · intro h; cases h
      · rintro ⟨r, h⟩; cases h
    | cons c t' =>
      simp only [startsWithL, Bool.and_eq_true, decide_eq_true_eq, ih,
        List.cons_append]
      constructor
      · rintro ⟨rfl, r, rfl⟩; exact ⟨r, rfl⟩
      · rintro ⟨r, h⟩
        injection h with h1 h2
        exact ⟨h1, r, h2⟩

/-- The substring test characterizes occurrence. -/
theorem containsL_iff (hay n : Str) :
    containsL hay n = true ↔ OccursIn n hay := by
  induction hay with
  | nil =>
    simp only [containsL, startsWithL_iff, OccursIn]
    constructor
    · rintro ⟨r, h⟩; exact ⟨[], r, by simpa using h⟩
    · rintro ⟨u, v, h⟩
      cases u with
      | nil => exact ⟨v, by simpa using h⟩
      | cons x u' => cases h
  | cons c t ih =>
    simp only [containsL, Bool.or_eq_true, startsWithL_iff, ih, OccursIn]
    constructor
    · rintro (⟨r, h⟩ | ⟨u, v, h⟩)
      · exact ⟨[], r, by simpa using h⟩
      · exact ⟨c :: u, v, by simp [h]⟩
    · rintro ⟨u, v, h⟩
      cases u with
      | nil => exact Or.inl ⟨v, by simpa using h⟩
      | cons x u' =>
        injection h with h1 h2
        exact Or.inr ⟨u', v, h2⟩

/-- Without an occurrence of `copyright © ` (case-insensitively), the
copyright rule is the identity. -/
theorem subCopyright_id :
    ∀ t : Str, containsL (lowerStr t) (str "copyright © ") = false →
      copyCore none t = t := by
  intro t
  induction t with
  | nil => intro _; rfl
  | cons c rest ih =>
    intro h
    obtain ⟨hs, hrest⟩ := containsL_cons_false (show containsL
      (lowerChar c :: lowerStr rest) (str "copyright © ") = false from h)
    have hhdr : copyrightHeaderAt (c :: rest) = false := by
      cases hb : copyrightHeaderAt (c :: rest) with
      | false => rfl
      | true =>
        exfalso
        have h1 : startsWithL (c :: rest) (str "Copyright © ") = true := by
          unfold copyrightHeaderAt at hb
          rw [Bool.and_eq_true] at hb
          exact hb.1
        have h2 := startsWithL_lower h1
        rw [show lowerStr (str "Copyright © ") = str "copyright © " from rfl] at h2
        rw [show lowerStr (c :: rest) = lowerChar c :: lowerStr rest from rfl] at h2
        rw [hs] at h2
        cases h2
    simp only [copyCore, hhdr, Bool.false_eq_true, if_false]
    rw [ih hrest]

/-- Without a case-insensitive occurrence of the spaced header, the
acknowledgments rule is the identity. -/
theorem subAck_id :
    ∀ t : Str,
      containsL (lowerStr t) (str "a c k n o w l e d g m e n t s") = false →
      subAck t = t := by
  intro t
  induction t with
  | nil => intro _; rfl
  | cons c rest ih =>
    intro h
    obtain ⟨hs, hrest⟩ := containsL_cons_false (show containsL
      (lowerChar c :: lowerStr rest) (str "a c k n o w l e d g m e n t s") = false from h)
    have hci : startsWithCI (c :: rest) (str "a c k n o w l e d g m e n t s") = false := by
      rw [startsWithCI_eq]
      exact hs
    simp only [subAck, hci, Bool.false_eq_true, if_false]
    rw [ih hrest]

/-- Without an occurrence of `int_` (case-insensitively), the page-marker
rule is the identity. -/
theorem subPage_id :
    ∀ t : Str, containsL (lowerStr t) (str "int_") = false →
      pageCore none t = t := by
  intro t
  induction t with
  | nil => intro _; rfl
  | cons c rest ih =>
    intro h
    obtain ⟨hs, hrest⟩ := containsL_cons_false (show containsL
      (lowerChar c :: lowerStr rest) (str "int_") = false from h)
    have hhdr : startsWithL (c :: rest) (str "INT_") = false := by
      cases hb : startsWithL (c :: rest) (str "INT_") with
      | false => rfl
      | true =>
        exfalso
        have h2 := startsWithL_lower hb
        rw [show lowerStr (str "INT_") = str "int_" from rfl] at h2
        rw [show lowerStr (c :: rest) = lowerChar c :: lowerStr rest from rfl] at h2
        rw [hs] at h2
        cases h2
    simp only [pageCore, hhdr, Bool.false_eq_true, if_false]
    rw [ih hrest]

/-- Without a case-insensitive occurrence of `for my readers`, the readers
rule is the identity. -/
theorem subReaders_id :
    ∀ t : Str, containsL (lowerStr t) (str "for my readers") = false →
      readersCore none t = t := by
  intro t
  induction t with
  | nil => intro _; rfl
  | cons c rest ih =>
    intro h
    obtain ⟨hs, hrest⟩ := containsL_cons_false (show containsL
      (lowerChar c :: lowerStr rest) (str "for my readers") = false from h)
    have hci : startsWithCI (c :: rest) (str "for my readers") = false := by
      rw [startsWithCI_eq]
      exact hs
    simp only [readersCore, hci, Bool.false_eq_true, if_false]
    rw [ih hrest]

/-- With no rule trigger present, the filter reduces to blank-line
collapsing and trimming. -/
theorem filterText_of_no_triggers (t : Str)
    (h1 : containsL (lowerStr t) (str "copyright © ") = false)
    (h2 : containsL (lowerStr t) (str "a c k n o w l e d g m e n t s") = false)
    (h3 : containsL (lowerStr t) (str "int_") = false)
    (h4 : containsL (lowerStr t) (str "for my readers") = false) :
    filterText t = strip (collapseNewlines t) := by
  unfold filterText subCopyright subPage subReaders
  rw [subCopyright_id t h1, subAck_id t h2, subPage_id t h3, subReaders_id t h4]

/-- Blank-line collapsing is the identity on texts with no run of three or
more newlines. -/
theorem collapseAux_of_no_run :
    ∀ (t : Str) (k : Nat), k ≤ 2 → nlRun k t = false →
      collapseAux k t = List.replicate k '\n' ++ t := by
  intro t
  induction t with
  | nil =>
    intro k hk _
    simp [collapseAux, Nat.min_eq_left hk]
  | cons c rest ih =>
    intro k hk h
    by_cases hc : c = '\n'
    · subst hc
      have hk1 : ¬ (k + 1 ≥ 3) := by
        intro hge
        simp [nlRun, hge] at h
      have h2 : nlRun (k + 1) rest = false := by
        simpa [nlRun, hk1] using h
      have hrw : collapseAux k ('\n' :: rest) = collapseAux (k + 1) rest := by
        simp [collapseAux]
      rw [hrw, ih (k + 1) (by omega) h2, List.replicate_succ' k '\n']
      simp
    · have h2 : nlRun 0 rest = false := by
        simpa [nlRun, hc] using h
      have hrw : collapseAux k (c :: rest)
          = List.replicate (min k 2) '\n' ++ c :: collapseAux 0 rest := by
        simp [collapseAux, hc]
      rw [hrw, Nat.min_eq_left hk, ih 0 (by omega) h2]
      simp

/-- The output of blank-line collapsing never contains a run of three
newlines. -/
theorem nlRun_collapseAux : ∀ (t : Str) (k : Nat), nlRun 0 (collapseAux k t) = false := by
  intro t
  induction t with
  | nil =>
    intro k
    have hrw : collapseAux k [] = List.replicate (min k 2) '\n' := rfl
    rw [hrw]
    set m := min k 2 with hm2
    have hm : m ≤ 2 := Nat.min_le_right _ _
    interval_cases m <;> decide
  | cons c rest ih =>
    intro k
    by_cases hc : c = '\n'
    · subst hc
      have hrw : collapseAux k ('\n' :: rest) = collapseAux (k + 1) rest := by
        simp [collapseAux]
      rw [hrw]
      exact ih (k + 1)
    · have hrw : collapseAux k (c :: rest)
          = List.replicate (min k 2) '\n' ++ c :: collapseAux 0 rest := by
        simp [collapseAux, hc]
      rw [hrw]
      set m := min k 2 with hm2
      have hm : m ≤ 2 := Nat.min_le_right _ _
      interval_cases m <;> simp [nlRun, hc] <;> exact ih 0

/-- The run detector is monotone in its starting counter. -/
theorem nlRun_mono :
    ∀ (t : Str) (j j' : Nat), j' ≤ j → nlRun j t = false → nlRun j' t = false := by
  intro t
  induction t with
  | nil => intro j j' _ _; rfl
  | cons c rest ih =>
    intro j j' hle h
    by_cases hc : c = '\n'
    · subst hc
      have h3 : ¬ (j + 1 ≥ 3) := by
        intro hge
        simp [nlRun, hge] at h
      have h2 : nlRun (j + 1) rest = false := by
        simpa [nlRun, h3] using h
      have h3' : ¬ (j' + 1 ≥ 3) := by omega
      simpa [nlRun, h3'] using ih (j + 1) (j' + 1) (by omega) h2
    · simpa [nlRun, hc] using (by simpa [nlRun, hc] using h : nlRun 0 rest = false)

/-- No 3-newline run in an append means none in the right part. -/
theorem nlRun_append_right :
    ∀ (u v : Str) (j : Nat), nlRun j (u ++ v) = false → nlRun 0 v = false := by
  intro u
  induction u with
  | nil => intro v j h; exact nlRun_mono v j 0 (by omega) h
  | cons c u' ih =>
    intro v j h
    by_cases hc : c = '\n'
    · subst hc
      have h3 : ¬ (j + 1 ≥ 3) := by
        intro hge
        simp [nlRun, hge] at h
      exact ih v (j + 1) (by simpa [nlRun, h3] using h)
    · exact ih v 0 (by simpa [nlRun, hc] using h)

/-- No 3-newline run in an append means none in the left part. -/
theorem nlRun_append_left :
    ∀ (u v : Str) (j : Nat), nlRun j (u ++ v) = false → nlRun j u = false := by
  intro u
  induction u with
  | nil => intro v j _; rfl
  | cons c u' ih =>
    intro v j h
    by_cases hc : c = '\n'
    · subst hc
      have h3 : ¬ (j + 1 ≥ 3) := by
        intro hge
        simp [nlRun, hge] at h
      have h2 := ih v (j + 1) (by simpa [nlRun, h3] using h)
      simpa [nlRun, h3] using h2
    · have h2 := ih v 0 (by simpa [nlRun, hc] using h)
      simpa [nlRun, hc] using h2

/-- `strip` returns a contiguous middle part of its input. -/
theorem strip_decomposition (t : Str) : ∃ u v, t = u ++ strip t ++ v := by
  obtain ⟨u, hu⟩ := List.dropWhile_suffix (l := t) pySpace
  obtain ⟨w, hw⟩ := List.dropWhile_suffix (l := (t.dropWhile pySpace).reverse) pySpace
  refine ⟨u, w.reverse, ?_⟩
  have h1 : t.dropWhile pySpace
      = strip t ++ w.reverse := by
    have := congrArg List.reverse hw
    simp only [List.reverse_append, List.reverse_reverse] at this
    rw [← this]
    rfl
  conv_rhs => rw [List.append_assoc, ← h1, hu]

/-- The head of a `dropWhile` result fails the predicate. -/
theorem head_dropWhile_false (p : Char → Bool) :
    ∀ (l : Str) (c : Char) (r : Str), l.dropWhile p = c :: r → p c = false := by
  intro l
  induction l with
  | nil => intro c r h; cases h
  | cons x l' ih =>
    intro c r h
    by_cases hx : p x = true
    · rw [List.dropWhile_cons_of_pos hx] at h
      exact ih c r h
    · rw [List.dropWhile_cons_of_neg hx] at h
      injection h with h1 _
      rw [← h1]
      exact Bool.eq_false_iff.mpr hx

/-- `dropWhile` is idempotent. -/
theorem dropWhile_idem (p : Char → Bool) (l : Str) :
    (l.dropWhile p).dropWhile p = l.dropWhile p := by
  cases hd : l.dropWhile p with
  | nil => rfl
  | cons c r =>
    rw [List.dropWhile_cons_of_neg]
    rw [head_dropWhile_false p l c r hd]
    simp

/-- `strip` is idempotent. -/
theorem strip_idem (t : Str) : strip (strip t) = strip t := by
  have hpre : List.dropWhile pySpace (strip t) = strip t := by
    cases hs : strip t with
    | nil => rfl
    | cons c s' =>
      obtain ⟨w, hw⟩ := List.dropWhile_suffix (l := (t.dropWhile pySpace).reverse) pySpace
      have h1 : t.dropWhile pySpace = strip t ++ w.reverse := by
        have := congrArg List.reverse hw
        simp only [List.reverse_append, List.reverse_reverse] at this
        rw [← this]
        rfl
      rw [hs] at h1
      have hc : pySpace c = false :=
        head_dropWhile_false pySpace t c (s' ++ w.reverse) (by rw [h1]; simp)
      rw [List.dropWhile_cons_of_neg (by rw [hc]; simp)]
  have hrev : (strip t).reverse = (t.dropWhile pySpace).reverse.dropWhile pySpace := by
    unfold strip
    rw [List.reverse_reverse]
  show ((((strip t).dropWhile pySpace).reverse).dropWhile pySpace).reverse = strip t
  rw [hpre, hrev, dropWhile_idem, ← hrev, List.reverse_reverse]

/-- A newline-free non-empty prefix of the collapsed text is a prefix of
the original. -/
theorem collapse_nlfree_pre :
    ∀ (t p : Str), '\n' ∉ p → (∃ r, collapseAux 0 t = p ++ r) →
      ∃ r', t = p ++ r' := by
  intro t
  induction t with
  | nil =>
    intro p hnl ⟨r, hr⟩
    cases p with
    | nil => exact ⟨[], rfl⟩
    | cons q p' => cases hr
  | cons c rest ih =>
    intro p hnl hpre
    by_cases hc : c = '\n'
    · subst hc
      cases p with
      | nil => exact ⟨'\n' :: rest, rfl⟩
      | cons q p' =>
        exfalso
        obtain ⟨r, hr⟩ := hpre
        have hrw : collapseAux 0 ('\n' :: rest) = collapseAux 1 rest := by
          simp [collapseAux]
        rw [hrw] at hr
        have hhead : ∀ (s : Str) (k : Nat), 1 ≤ k →
            collapseAux k s = [] ∨ ∃ r2, collapseAux k s = '\n' :: r2 := by
          intro s
          induction s with
          | nil =>
            intro k hk
            right
            have hrw2 : collapseAux k [] = List.replicate (min k 2) '\n' := rfl
            have hm : 1 ≤ min k 2 := by omega
            cases hmm : min k 2 with
            | zero => omega
            | succ mm => exact ⟨List.replicate mm '\n', by rw [hrw2, hmm]; rfl⟩
          | cons d s' ihs =>
            intro k hk
            by_cases hd : d = '\n'
            · subst hd
              have hrw2 : collapseAux k ('\n' :: s') = collapseAux (k + 1) s' := by
                simp [collapseAux]
              rw [hrw2]
              exact ihs (k + 1) (by omega)
            · right
              have hrw2 : collapseAux k (d :: s')
                  = List.replicate (min k 2) '\n' ++ d :: collapseAux 0 s' := by
                simp [collapseAux, hd]
              have hm : 1 ≤ min k 2 := by omega
              cases hmm : min k 2 with
              | zero => omega
              | succ mm =>
                exact ⟨List.replicate mm '\n' ++ d :: collapseAux 0 s',
                  by rw [hrw2, hmm]; rfl⟩
        rcases hhead rest 1 (by omega) with hnil | ⟨r2, hr2⟩
        · rw [hnil] at hr; cases hr
        · rw [hr2] at hr
          injection hr with h1 _
          exact hnl (by rw [← h1]; exact List.mem_cons_self '\n' p')
    · have hrw : collapseAux 0 (c :: rest) = c :: collapseAux 0 rest := by
        simp [collapseAux, hc]
      obtain ⟨r, hr⟩ := hpre
      rw [hrw] at hr
      cases p with
      | nil => exact ⟨c :: rest, rfl⟩
      | cons q p' =>
        injection hr with h1 h2
        obtain ⟨r', hr'⟩ := ih p' (fun hm => hnl (List.mem_cons_of_mem q hm)) ⟨r, h2⟩
        exact ⟨r', by rw [h1, hr', List.cons_append]⟩

/-- An occurrence after a block of newlines, for a newline-free needle, is
an occurrence after the block. -/
theorem occurs_skip_nl_block :
    ∀ (A B p : Str), '\n' ∉ p → p ≠ [] → (∀ a ∈ A, a = '\n') →
      OccursIn p (A ++ B) → OccursIn p B := by
  intro A
  induction A with
  | nil => intro B p _ _ _ h; simpa using h
  | cons a A' ih =>
    intro B p hnl hne hall h
    obtain ⟨u, v, huv⟩ := h
    cases u with
    | nil =>
      exfalso
      cases p with
      | nil => exact hne rfl
      | cons q p' =>
        simp only [List.nil_append, List.cons_append] at huv
        injection huv with h1 _
        have ha : a = '\n' := hall a (List.mem_cons_self a A')
        apply hnl
        rw [← h1, ha]
        exact List.mem_cons_self '\n' p'
    | cons x u' =>
      simp only [List.cons_append] at huv
      injection huv with _ h2
      exact ih B p hnl hne (fun b hb => hall b (List.mem_cons_of_mem a hb)) ⟨u', v, h2⟩

/-- An occurrence is preserved by prepending context. -/
theorem occurs_of_occurs_right {p s : Str} (w : Str) (h : OccursIn p s) :
    OccursIn p (w ++ s) := by
  obtain ⟨u, v, huv⟩ := h
  exact ⟨w ++ u, v, by rw [huv]; simp⟩

/-- A newline-free non-empty needle occurring in the collapsed text occurs
in the original text (with its pending newline block restored). -/
theorem collapse_nlfree_occurs :
    ∀ (t p : Str) (k : Nat), p ≠ [] → '\n' ∉ p →
      OccursIn p (collapseAux k t) → OccursIn p (List.replicate k '\n' ++ t) := by
  intro t
  induction t with
  | nil =>
    intro p k hne hnl h
    exfalso
    obtain ⟨u, v, huv⟩ := h
    have hq : ∀ a ∈ p, a = '\n' := by
      intro a ha
      have : a ∈ List.replicate (min k 2) '\n' := by
        have hrw : collapseAux k ([] : Str) = List.replicate (min k 2) '\n' := rfl
        rw [hrw] at huv
        rw [huv]
        simp [ha]
      exact List.eq_of_mem_replicate this
    cases p with
    | nil => exact hne rfl
    | cons q p' => exact hnl (by rw [hq q (List.mem_cons_self q p')]; exact List.mem_cons_self '\n' p')
  | cons c rest ih =>
    intro p k hne hnl h
    by_cases hc : c = '\n'
    · subst hc
      have hrw : collapseAux k ('\n' :: rest) = collapseAux (k + 1) rest := by
        simp [collapseAux]
      rw [hrw] at h
      have h2 := ih p (k + 1) hne hnl h
      rw [List.replicate_succ' k '\n', List.append_assoc] at h2
      simpa using h2
    · have hrw : collapseAux k (c :: rest)
          = List.replicate (min k 2) '\n' ++ c :: collapseAux 0 rest := by
        simp [collapseAux, hc]
      rw [hrw] at h
      have hB : OccursIn p (c :: collapseAux 0 rest) :=
        occurs_skip_nl_block _ _ p hnl hne (fun a ha => List.eq_of_mem_replicate ha) h
      have hout : OccursIn p (c :: rest) := by
        obtain ⟨u, v, huv⟩ := hB
        cases u with
        | nil =>
          cases p with
          | nil => exact absurd rfl hne
          | cons q p' =>
            simp only [List.nil_append, List.cons_append] at huv
            injection huv with h1 h2
            obtain ⟨r', hr'⟩ := collapse_nlfree_pre rest p'
              (fun hm => hnl (List.mem_cons_of_mem q hm)) ⟨v, h2⟩
            exact ⟨[], r', by rw [List.nil_append, List.cons_append, h1, hr']⟩
        | cons x u' =>
          simp only [List.cons_append] at huv
          injection huv with h1 h2
          have h3 := ih p 0 hne hnl ⟨u', v, h2⟩
          rw [List.replicate, List.nil_append] at h3
          obtain ⟨u2, v2, huv2⟩ := h3
          exact ⟨c :: u2, v2, by rw [List.cons_append, huv2]; simp⟩
      exact occurs_of_occurs_right _ hout

/-- Lower-casing commutes with blank-line collapsing. -/
theorem lowerStr_collapseAux :
    ∀ (t : Str) (k : Nat), lowerStr (collapseAux k t) = collapseAux k (lowerStr t) := by
  intro t
  induction t with
  | nil =>
    intro k
    have hrw : collapseAux k ([] : Str) = List.replicate (min k 2) '\n' := rfl
    rw [hrw]
    show List.map lowerChar (List.replicate (min k 2) '\n') = _
    rw [List.map_replicate]
    rfl
  | cons c rest ih =>
    intro k
    by_cases hc : c = '\n'
    · subst hc
      have hrw : collapseAux k ('\n' :: rest) = collapseAux (k + 1) rest := by
        simp [collapseAux]
      have hrw2 : collapseAux k (lowerStr ('\n' :: rest))
          = collapseAux (k + 1) (lowerStr rest) := by
        show collapseAux k (lowerChar '\n' :: lowerStr rest) = _
        simp [collapseAux, show lowerChar '\n' = '\n' from rfl]
      rw [hrw, hrw2]
      exact ih (k + 1)
    · have hlc : ¬ lowerChar c = '\n' := fun hl => hc ((lowerChar_eq_newline_iff c).mp hl)
      have hrw : collapseAux k (c :: rest)
          = List.replicate (min k 2) '\n' ++ c :: collapseAux 0 rest := by
        simp [collapseAux, hc]
      have hrw2 : collapseAux k (lowerStr (c :: rest))
          = List.replicate (min k 2) '\n' ++ lowerChar c :: collapseAux 0 (lowerStr rest) := by
        show collapseAux k (lowerChar c :: lowerStr rest) = _
        simp [collapseAux, hlc]
      rw [hrw, hrw2]
      show List.map lowerChar _ = _
      rw [List.map_append, List.map_replicate, List.map_cons]
      rw [show lowerChar '\n' = '\n' from rfl]
      exact congrArg _ (congrArg _ (ih 0))

/-- An occurrence in the lower-cased stripped text occurs in the
lower-cased text. -/
theorem occurs_lower_strip {n : Str} (t : Str)
    (h : OccursIn n (lowerStr (strip t))) : OccursIn n (lowerStr t) := by
  obtain ⟨u, v, huv⟩ := strip_decomposition t
  obtain ⟨a, b, hab⟩ := h
  refine ⟨lowerStr u ++ a, b ++ lowerStr v, ?_⟩
  rw [show lowerStr t = lowerStr u ++ lowerStr (strip t) ++ lowerStr v from by
    rw [show lowerStr t = lowerStr (u ++ strip t ++ v) from by rw [← huv]]
    simp [lowerStr], hab]
  simp

/-- Absence of a newline-free trigger survives the collapse-and-strip
cleanup. -/
theorem no_trigger_after_cleanup (needle t : Str) (hne : needle ≠ [])
    (hnl : '\n' ∉ needle)
    (h : containsL (lowerStr t) needle = false) :
    containsL (lowerStr (strip (collapseNewlines t))) needle = false := by
  cases hb : containsL (lowerStr (strip (collapseNewlines t))) needle with
  | false => rfl
  | true =>
    exfalso
    have h1 := (containsL_iff _ _).mp hb
    have h2 := occurs_lower_strip (collapseNewlines t) h1
    rw [show lowerStr (collapseNewlines t) = collapseAux 0 (lowerStr t) from
      lowerStr_collapseAux t 0] at h2
    have h3 := collapse_nlfree_occurs (lowerStr t) needle 0 hne hnl h2
    rw [List.replicate, List.nil_append] at h3
    rw [(containsL_iff _ _).mpr h3] at h
    cases h

/-- C7, counterexample: the filter is not idempotent.  On the text
`Copyright © FOR MY READERS z\n2025 bar` the first application only removes
the `FOR MY READERS z\n` line — which splices together a copyright block —
and the second application removes the rest, so
`filter(filter(text)) ≠ filter(text)`. -/
theorem c7_filter_not_idempotent :
    filterText (filterText (str "Copyright © FOR MY READERS z\n2025 bar"))
      ≠ filterText (str "Copyright © FOR MY READERS z\n2025 bar") := by
  decide

/-- C7, amended: the filter is idempotent on texts free of the four rule
triggers (no `Copyright © `/`copyright © `, no spaced
acknowledgments header, no `INT_`/`int_`, no `FOR MY READERS` — all
case-insensitively); on those texts it reduces to blank-line collapsing
plus trimming, and those two cleanups are idempotent.  (In general it is
not idempotent: a removal can splice together a match for an earlier rule,
see the counterexample.) -/
theorem c7_filter_idempotent_without_triggers (t : Str)
    (h1 : containsL (lowerStr t) (str "copyright © ") = false)
    (h2 : containsL (lowerStr t) (str "a c k n o w l e d g m e n t s") = false)
    (h3 : containsL (lowerStr t) (str "int_") = false)
    (h4 : containsL (lowerStr t) (str "for my readers") = false) :
    filterText t = strip (collapseNewlines t) ∧
    filterText (filterText t) = filterText t := by
  have hred := filterText_of_no_triggers t h1 h2 h3 h4
  refine ⟨hred, ?_⟩
  rw [hred]
  have hs1 := no_trigger_after_cleanup (str "copyright © ") t (by decide) (by decide) h1
  have hs2 := no_trigger_after_cleanup (str "a c k n o w l e d g m e n t s") t
    (by decide) (by decide) h2
  have hs3 := no_trigger_after_cleanup (str "int_") t (by decide) (by decide) h3
  have hs4 := no_trigger_after_cleanup (str "for my readers") t (by decide) (by decide) h4
  rw [filterText_of_no_triggers _ hs1 hs2 hs3 hs4]
  have hnr : nlRun 0 (strip (collapseNewlines t)) = false := by
    obtain ⟨u, v, huv⟩ := strip_decomposition (collapseNewlines t)
    have hall : nlRun 0 (collapseNewlines t) = false := nlRun_collapseAux t 0
    rw [huv, List.append_assoc] at hall
    exact nlRun_append_left _ v 0 (nlRun_append_right u _ 0 hall)
  have hcol : collapseNewlines (strip (collapseNewlines t)) = strip (collapseNewlines t) := by
    have := collapseAux_of_no_run (strip (collapseNewlines t)) 0 (by omega) hnr
    simpa [collapseNewlines] using this
  rw [hcol, strip_idem]

/-- C7, witness: the amended theorem applied to a trigger-free text with a
collapsible blank-line run. -/
theorem c7_filter_idempotent_witness :
    containsL (lowerStr (str "One line.\n\n\n\nAnother line."))
      (str "copyright © ") = false ∧
    containsL (lowerStr (str "One line.\n\n\n\nAnother line."))
      (str "a c k n o w l e d g m e n t s") = false ∧
    containsL (lowerStr (str "One line.\n\n\n\nAnother line."))
      (str "int_") = false ∧
    containsL (lowerStr (str "One line.\n\n\n\nAnother line."))
      (str "for my readers") = false ∧
    filterText (filterText (str "One line.\n\n\n\nAnother line."))
      = filterText (str "One line.\n\n\n\nAnother line.") :=
  ⟨by decide, by decide, by decide, by decide,
    (c7_filter_idempotent_without_triggers (str "One line.\n\n\n\nAnother line.")
      (by decide) (by decide) (by decide) (by decide)).2⟩

end SAA
